import Mathlib

/-!
# Verification of the monkit `Registry` and trace-context propagation

A shallow embedding of `registry.go` from the monkit monitoring library,
together with the trace-context propagation protocol it is tested with.

The Go code is concurrent; locks serialize every mutation, so the sequential
behaviour of each operation is embedded as a pure state-transforming function
and the properties are proved about arbitrary sequences of such operations.
Go maps are embedded as association lists (`List (key × value)`); iteration
order over a Go map is unspecified, so theorems that depend on order are
either order-insensitive (multiset statements) or quantify over permutations
of the snapshot.
-/

namespace Monkit

/-! ## Trace watchers (`Registry.traceWatcher`, `ObserveTraces`, `observeTrace`)

The callback type `func(*Trace)` is abstracted by a type parameter `α`:
a callback's only observable effect here is that the dispatch path invokes
it, so `observeTrace` is embedded as the list of callbacks invoked, in order.
-/

/-- Embeds `traceWatcherRef` together with the three-way `switch` in
`updateWatcher`: the atomic pointer is `nil` (`Option.none`), a ref holding
the lone callback, or a ref holding a closure over the slice `cbs`. -/
inductive TraceWatcherRef (α : Type) where
  | single (cb : α)
  | multi (cbs : List α)
deriving DecidableEq

/-- The `Registry` struct of `registry.go`.  `Scope`/span fields come later;
this part carries the watcher state: the atomically published dispatch
pointer `traceWatcher`, the counter `watcherCounter` and the authoritative
map `traceWatchers` (embedded as an association list in insertion order). -/
structure WatcherState (α : Type) where
  traceWatcher : Option (TraceWatcherRef α)
  watcherCounter : Int
  traceWatchers : List (Int × α)
deriving DecidableEq

/-- `NewRegistry`, restricted to the watcher fields: empty map, nil pointer. -/
def WatcherState.init (α : Type) : WatcherState α :=
  { traceWatcher := none, watcherCounter := 0, traceWatchers := [] }

/-- `updateWatcher`: collect the map's values into `cbs`, then publish
`nil` / the single callback / a closure running all of `cbs`, according to
`len(cbs)`. -/
def updateWatcher {α : Type} (r : WatcherState α) : WatcherState α :=
  let cbs := r.traceWatchers.map Prod.snd
  match cbs with
  | [] => { r with traceWatcher := none }
  | [cb] => { r with traceWatcher := some (.single cb) }
  | cbs => { r with traceWatcher := some (.multi cbs) }

/-- `observeTrace`: load the pointer; if nil do nothing, else call through it.
The result is the sequence of callbacks invoked on the trace. -/
def observeTrace {α : Type} (r : WatcherState α) : List α :=
  match r.traceWatcher with
  | none => []
  | some (.single cb) => [cb]
  | some (.multi cbs) => cbs

/-- `ObserveTraces(cb)` under `watcherMtx`: allocate `cbId`, bump the
counter, insert into the map, recompute the dispatch pointer.  Returns the
new state and the id captured by the returned cancel closure. -/
def observeTraces {α : Type} (r : WatcherState α) (cb : α) : WatcherState α × Int :=
  let cbId := r.watcherCounter
  let r' := { r with
    watcherCounter := r.watcherCounter + 1,
    traceWatchers := r.traceWatchers ++ [(cbId, cb)] }
  (updateWatcher r', cbId)

/-- The cancel closure returned by `ObserveTraces`, applied to the captured
`cbId`: `delete(r.traceWatchers, cbId)` then `updateWatcher`. -/
def cancelWatcher {α : Type} (r : WatcherState α) (cbId : Int) : WatcherState α :=
  updateWatcher { r with
    traceWatchers := r.traceWatchers.filter (fun kv => kv.1 ≠ cbId) }

/-- A registration or cancellation step, the two mutations of the watcher
state.  `cancel i` is a call of the cancel closure that captured id `i`. -/
inductive WatcherOp (α : Type) where
  | register (cb : α)
  | cancel (cbId : Int)

/-- Run one watcher mutation. -/
def watcherStep {α : Type} (r : WatcherState α) : WatcherOp α → WatcherState α
  | .register cb => (observeTraces r cb).1
  | .cancel cbId => cancelWatcher r cbId

/-- Run a sequence of registrations and cancellations from a state. -/
def watcherRun {α : Type} (r : WatcherState α) (ops : List (WatcherOp α)) :
    WatcherState α :=
  ops.foldl watcherStep r

/-- `updateWatcher` leaves the authoritative map unchanged. -/
theorem updateWatcher_traceWatchers {α : Type} (r : WatcherState α) :
    (updateWatcher r).traceWatchers = r.traceWatchers := by
  unfold updateWatcher
  cases h : r.traceWatchers.map Prod.snd with
  | nil => rfl
  | cons c t => cases t <;> rfl

/-- `updateWatcher` leaves the counter unchanged. -/
theorem updateWatcher_watcherCounter {α : Type} (r : WatcherState α) :
    (updateWatcher r).watcherCounter = r.watcherCounter := by
  unfold updateWatcher
  cases h : r.traceWatchers.map Prod.snd with
  | nil => rfl
  | cons c t => cases t <;> rfl

/-- Key consistency lemma: right after `updateWatcher`, the dispatch path
invokes exactly the values of the authoritative map, in order. -/
theorem observeTrace_updateWatcher {α : Type} (r : WatcherState α) :
    observeTrace (updateWatcher r) = r.traceWatchers.map Prod.snd := by
  unfold updateWatcher
  cases h : r.traceWatchers.map Prod.snd with
  | nil => simp [observeTrace]
  | cons c t => cases t <;> simp [observeTrace]

/-- The consistency invariant: the published dispatch closure invokes
exactly the map's values. -/
def watcherConsistent {α : Type} (r : WatcherState α) : Prop :=
  observeTrace r = r.traceWatchers.map Prod.snd

theorem watcherConsistent_init (α : Type) : watcherConsistent (WatcherState.init α) := rfl

theorem watcherConsistent_step {α : Type} (r : WatcherState α) (op : WatcherOp α) :
    watcherConsistent (watcherStep r op) := by
  cases op with
  | register cb =>
      show watcherConsistent (updateWatcher _)
      unfold watcherConsistent
      rw [observeTrace_updateWatcher, updateWatcher_traceWatchers]
  | cancel cbId =>
      show watcherConsistent (updateWatcher _)
      unfold watcherConsistent
      rw [observeTrace_updateWatcher, updateWatcher_traceWatchers]

theorem watcherConsistent_run {α : Type} (ops : List (WatcherOp α)) :
    watcherConsistent (watcherRun (WatcherState.init α) ops) := by
  rcases h : ops.reverse with _ | ⟨op, rest⟩
  · have : ops = [] := by
      have := congrArg List.reverse h; simpa using this
    simp [this, watcherRun, watcherConsistent_init]
  · have hops : ops = rest.reverse ++ [op] := by
      have := congrArg List.reverse h; simpa using this
    subst hops
    rw [watcherRun, List.foldl_append]
    exact watcherConsistent_step _ op

/-- Two watcher states with the same map and counter are sent to the same
state by `updateWatcher` (it overwrites the only remaining field). -/
theorem updateWatcher_ext {α : Type} (r₁ r₂ : WatcherState α)
    (hw : r₁.traceWatchers = r₂.traceWatchers)
    (hc : r₁.watcherCounter = r₂.watcherCounter) :
    updateWatcher r₁ = updateWatcher r₂ := by
  cases r₁; cases r₂
  cases hw; cases hc
  unfold updateWatcher
  rfl

theorem filter_key_ne_idem {α : Type} (l : List (Int × α)) (i : Int) :
    (l.filter (fun kv => kv.1 ≠ i)).filter (fun kv => kv.1 ≠ i)
      = l.filter (fun kv => kv.1 ≠ i) := by
  rw [List.filter_filter]
  simp

theorem lookup_filter_key_ne {α : Type} (l : List (Int × α)) (i j : Int)
    (hij : j ≠ i) :
    List.lookup j (l.filter (fun kv => kv.1 ≠ i)) = List.lookup j l := by
  induction l with
  | nil => rfl
  | cons kv rest ih =>
      by_cases hk : kv.1 = i
      · have hj : (j == kv.1) = false := by simp [beq_iff_eq, hk, hij]
        rw [List.filter_cons_of_neg (by simp [hk])]
        rw [ih, List.lookup_cons, hj]
      · by_cases hj : j = kv.1
        · rw [List.filter_cons_of_pos (by simp [hk])]
          rw [List.lookup_cons, List.lookup_cons]
          have : (j == kv.1) = true := by simp [beq_iff_eq, hj]
          rw [this]
        · have hj' : (j == kv.1) = false := by simp [beq_iff_eq, hj]
          rw [List.filter_cons_of_pos (by simp [hk])]
          rw [List.lookup_cons, List.lookup_cons, hj', ih]

/-- Projections of a registration: the id handed to the cancel closure is
the old counter, the counter is bumped, the pair is appended to the map. -/
theorem observeTraces_snd {α : Type} (r : WatcherState α) (cb : α) :
    (observeTraces r cb).2 = r.watcherCounter := rfl

theorem observeTraces_fst_traceWatchers {α : Type} (r : WatcherState α) (cb : α) :
    (observeTraces r cb).1.traceWatchers
      = r.traceWatchers ++ [(r.watcherCounter, cb)] :=
  updateWatcher_traceWatchers _

theorem observeTraces_fst_watcherCounter {α : Type} (r : WatcherState α) (cb : α) :
    (observeTraces r cb).1.watcherCounter = r.watcherCounter + 1 :=
  updateWatcher_watcherCounter _

theorem cancelWatcher_traceWatchers {α : Type} (r : WatcherState α) (i : Int) :
    (cancelWatcher r i).traceWatchers
      = r.traceWatchers.filter (fun kv => kv.1 ≠ i) :=
  updateWatcher_traceWatchers _

theorem cancelWatcher_watcherCounter {α : Type} (r : WatcherState α) (i : Int) :
    (cancelWatcher r i).watcherCounter = r.watcherCounter :=
  updateWatcher_watcherCounter _

/-- Well-formedness of the watcher map: keys are distinct and below the
counter. -/
def watcherKeysOK {α : Type} (r : WatcherState α) : Prop :=
  (r.traceWatchers.map Prod.fst).Nodup ∧
    ∀ k ∈ r.traceWatchers.map Prod.fst, k < r.watcherCounter

theorem watcherKeysOK_init (α : Type) : watcherKeysOK (WatcherState.init α) := by
  refine ⟨List.nodup_nil, ?_⟩
  intro k hk
  simp [WatcherState.init] at hk

theorem watcherKeysOK_step {α : Type} (r : WatcherState α) (op : WatcherOp α)
    (h : watcherKeysOK r) : watcherKeysOK (watcherStep r op) := by
  obtain ⟨hnd, hlt⟩ := h
  cases op with
  | register cb =>
      unfold watcherKeysOK watcherStep
      rw [observeTraces_fst_traceWatchers, observeTraces_fst_watcherCounter]
      constructor
      · simp only [List.map_append, List.map_cons, List.map_nil]
        rw [List.nodup_append]
        refine ⟨hnd, List.nodup_singleton _, ?_⟩
        intro k hk hk1
        have : k = r.watcherCounter := by simpa using hk1
        exact absurd (hlt k hk) (by simp [this])
      · intro k hk
        simp only [List.map_append, List.map_cons, List.map_nil,
          List.mem_append, List.mem_singleton] at hk
        rcases hk with hk | hk
        · have := hlt k hk; omega
        · omega
  | cancel cbId =>
      unfold watcherKeysOK watcherStep
      rw [cancelWatcher_traceWatchers, cancelWatcher_watcherCounter]
      constructor
      · exact List.Nodup.sublist ((List.filter_sublist _).map Prod.fst) hnd
      · intro k hk
        rcases List.mem_map.mp hk with ⟨kv, hkv, hfst⟩
        exact hfst ▸ hlt kv.1 (List.mem_map_of_mem Prod.fst (List.mem_of_mem_filter hkv))

theorem watcherKeysOK_run {α : Type} (ops : List (WatcherOp α)) :
    watcherKeysOK (watcherRun (WatcherState.init α) ops) := by
  induction ops using List.reverseRecOn with
  | nil => exact watcherKeysOK_init α
  | append_singleton rest op ih =>
      rw [watcherRun, List.foldl_append]
      exact watcherKeysOK_step _ op ih

/-- **C1.** After any sequence of `ObserveTraces` registrations and
cancellations, the atomically published dispatch closure matches the
`traceWatchers` map: one call of `observeTrace` invokes exactly the
currently registered callbacks (so each callback value as often as it is
registered — nothing for 0 watchers, the lone callback for 1, all N for
N > 1), and the hot path reads nothing but the atomic `traceWatcher`
pointer (any state with the same pointer dispatches identically, without
touching the mutex-guarded map). -/
theorem observeTrace_dispatch_consistent {α : Type} [DecidableEq α]
    (ops : List (WatcherOp α)) :
    observeTrace (watcherRun (WatcherState.init α) ops)
        = (watcherRun (WatcherState.init α) ops).traceWatchers.map Prod.snd
      ∧ (∀ cb : α,
          (observeTrace (watcherRun (WatcherState.init α) ops)).count cb
            = ((watcherRun (WatcherState.init α) ops).traceWatchers.map Prod.snd).count cb)
      ∧ (∀ r' : WatcherState α,
          r'.traceWatcher = (watcherRun (WatcherState.init α) ops).traceWatcher →
            observeTrace r' = observeTrace (watcherRun (WatcherState.init α) ops)) := by
  refine ⟨watcherConsistent_run ops, ?_, ?_⟩
  · intro cb
    rw [watcherConsistent_run ops]
  · intro r' h
    unfold observeTrace
    rw [h]

/-- Witness for C1 at a concrete run: registering 7 then 3 publishes the
two-callback closure, and a state sharing that pointer dispatches `[7, 3]`. -/
theorem observeTrace_dispatch_consistent_witness :
    observeTrace (watcherRun (WatcherState.init Nat)
        [WatcherOp.register 7, WatcherOp.register 3]) = [7, 3]
      ∧ observeTrace
          { traceWatcher := some (TraceWatcherRef.multi [7, 3]),
            watcherCounter := 0, traceWatchers := [] }
          = observeTrace (watcherRun (WatcherState.init Nat)
              [WatcherOp.register 7, WatcherOp.register 3]) := by
  have h := observeTrace_dispatch_consistent (α := Nat)
    [WatcherOp.register 7, WatcherOp.register 3]
  exact ⟨by rw [h.1]; rfl, h.2.2 _ rfl⟩

/-- **C6.** The cancel closure from `ObserveTraces` deregisters exactly its
own registration: starting from any well-formed watcher state, after
registering `cb` and cancelling, the map is back to what it was (so the
callback of this registration is no longer dispatched: a subsequent
`observeTrace` invokes exactly the previously registered callbacks), and
calling the same cancel a second time is a no-op on the whole state. -/
theorem cancel_deregisters_exactly_once {α : Type} (r : WatcherState α) (cb : α)
    (hlt : ∀ k ∈ r.traceWatchers.map Prod.fst, k < r.watcherCounter) :
    (cancelWatcher (observeTraces r cb).1 (observeTraces r cb).2).traceWatchers
        = r.traceWatchers
      ∧ observeTrace (cancelWatcher (observeTraces r cb).1 (observeTraces r cb).2)
        = r.traceWatchers.map Prod.snd
      ∧ cancelWatcher
          (cancelWatcher (observeTraces r cb).1 (observeTraces r cb).2)
          (observeTraces r cb).2
        = cancelWatcher (observeTraces r cb).1 (observeTraces r cb).2 := by
  have hfilter :
      ((observeTraces r cb).1.traceWatchers.filter
        (fun kv => kv.1 ≠ (observeTraces r cb).2)) = r.traceWatchers := by
    rw [observeTraces_snd, observeTraces_fst_traceWatchers, List.filter_append]
    have h1 : r.traceWatchers.filter (fun kv => kv.1 ≠ r.watcherCounter)
        = r.traceWatchers := by
      apply List.filter_eq_self.mpr
      intro kv hkv
      have := hlt kv.1 (List.mem_map_of_mem Prod.fst hkv)
      simp only [ne_eq, decide_eq_true_eq]
      omega
    have h2 : [(r.watcherCounter, cb)].filter
        (fun kv : Int × α => kv.1 ≠ r.watcherCounter) = [] := by
      simp
    rw [h1, h2, List.append_nil]
  refine ⟨?_, ?_, ?_⟩
  · rw [cancelWatcher_traceWatchers]
    exact hfilter
  · show observeTrace (updateWatcher _) = _
    rw [observeTrace_updateWatcher]
    exact congrArg (List.map Prod.snd) hfilter
  · show updateWatcher _ = updateWatcher _
    apply updateWatcher_ext
    · show (cancelWatcher _ _).traceWatchers.filter _
        = (observeTraces r cb).1.traceWatchers.filter _
      rw [cancelWatcher_traceWatchers, filter_key_ne_idem]
    · show (cancelWatcher _ _).watcherCounter = (observeTraces r cb).1.watcherCounter
      rw [cancelWatcher_watcherCounter]

/-- Witness for C6 from the empty registry with callback `5`. -/
theorem cancel_deregisters_exactly_once_witness :
    (cancelWatcher (observeTraces (WatcherState.init Nat) 5).1
        (observeTraces (WatcherState.init Nat) 5).2).traceWatchers = []
      ∧ observeTrace (cancelWatcher (observeTraces (WatcherState.init Nat) 5).1
          (observeTraces (WatcherState.init Nat) 5).2) = [] := by
  have h := cancel_deregisters_exactly_once (WatcherState.init Nat) 5
    (by intro k hk; simp [WatcherState.init] at hk)
  exact ⟨h.1, h.2.1⟩

/-- **C9.** Watcher ids come from a strictly increasing counter and are
never reused: in every reachable state the map's keys are distinct and all
below the counter, a new registration gets id equal to the current counter
(hence distinct from every key in the map), every step only increases the
counter, and a cancel for id `i` leaves the entry of every other id `j`
untouched. -/
theorem watcher_ids_fresh_and_cancel_own {α : Type} (ops : List (WatcherOp α))
    (cb : α) :
    ((watcherRun (WatcherState.init α) ops).traceWatchers.map Prod.fst).Nodup
      ∧ (∀ k ∈ (watcherRun (WatcherState.init α) ops).traceWatchers.map Prod.fst,
          k < (watcherRun (WatcherState.init α) ops).watcherCounter)
      ∧ (observeTraces (watcherRun (WatcherState.init α) ops) cb).2
          = (watcherRun (WatcherState.init α) ops).watcherCounter
      ∧ (observeTraces (watcherRun (WatcherState.init α) ops) cb).2
          ∉ (watcherRun (WatcherState.init α) ops).traceWatchers.map Prod.fst
      ∧ (∀ r' : WatcherState α, ∀ op : WatcherOp α,
          r'.watcherCounter ≤ (watcherStep r' op).watcherCounter)
      ∧ (∀ i j : Int, j ≠ i →
          List.lookup j (cancelWatcher (watcherRun (WatcherState.init α) ops) i).traceWatchers
            = List.lookup j (watcherRun (WatcherState.init α) ops).traceWatchers) := by
  obtain ⟨hnd, hlt⟩ := watcherKeysOK_run (α := α) ops
  refine ⟨hnd, hlt, rfl, ?_, ?_, ?_⟩
  · intro hmem
    have hcontra := hlt _ hmem
    rw [observeTraces_snd] at hcontra
    omega
  · intro r' op
    cases op with
    | register cb' =>
        show r'.watcherCounter ≤ (observeTraces r' cb').1.watcherCounter
        rw [observeTraces_fst_watcherCounter]
        omega
    | cancel i =>
        show r'.watcherCounter ≤ (cancelWatcher r' i).watcherCounter
        rw [cancelWatcher_watcherCounter]
  · intro i j hij
    rw [cancelWatcher_traceWatchers]
    exact lookup_filter_key_ne _ i j hij

/-- Witness for C9: after one registration, id 1 is fresh, and cancelling
id 5 does not disturb the entry registered under id 0. -/
theorem watcher_ids_fresh_and_cancel_own_witness :
    (observeTraces (watcherRun (WatcherState.init Nat) [WatcherOp.register 9]) 4).2
        ∉ (watcherRun (WatcherState.init Nat)
            [WatcherOp.register 9]).traceWatchers.map Prod.fst
      ∧ List.lookup 0
          (cancelWatcher (watcherRun (WatcherState.init Nat)
            [WatcherOp.register 9]) 5).traceWatchers
        = List.lookup 0 (watcherRun (WatcherState.init Nat)
            [WatcherOp.register 9]).traceWatchers := by
  have h := watcher_ids_fresh_and_cancel_own (α := Nat) [WatcherOp.register 9] 4
  exact ⟨h.2.2.2.1, h.2.2.2.2.2 5 0 (by decide)⟩

/-! ## Scopes (`Registry.scopes`, `PackageNamed`)

`scopeMtx` serializes all accesses, so `PackageNamed` is embedded as a pure
function on the scope fields of the `Registry`.  Go's `*Scope` pointer
identity is embedded as an allocation counter: `newScope` hands out a fresh
`ptr`, and two `Scope` values are "the identical instance" iff they are
equal (in particular their `ptr`s agree). -/

/-- The identity-relevant part of a `Scope`: its allocation identity and the
`name` it was created under (`newScope(r, name)`). -/
structure Scope where
  ptr : Nat
  sname : String
deriving DecidableEq

/-- The `scopeMtx`-guarded fields of `Registry`: the `scopes` map (an
association list) plus the allocator for `Scope` identities. -/
structure ScopeState where
  scopes : List (String × Scope)
  nextScopePtr : Nat
deriving DecidableEq

/-- `PackageNamed`: look `name` up in `r.scopes`; if present return the
stored scope, else create `newScope(r, name)`, store it, and return it. -/
def packageNamed (st : ScopeState) (name : String) : ScopeState × Scope :=
  match st.scopes.lookup name with
  | some s => (st, s)
  | none =>
      let s : Scope := { ptr := st.nextScopePtr, sname := name }
      ({ scopes := st.scopes ++ [(name, s)], nextScopePtr := st.nextScopePtr + 1 }, s)

theorem lookup_append_of_lookup_eq_none {β : Type} (l₁ l₂ : List (String × β))
    (k : String) (h : l₁.lookup k = none) :
    (l₁ ++ l₂).lookup k = l₂.lookup k := by
  induction l₁ with
  | nil => rfl
  | cons kv rest ih =>
      rw [List.cons_append, List.lookup_cons] at *
      cases hk : (k == kv.1) with
      | true => rw [hk] at h; simp at h
      | false => rw [hk] at h; exact ih h

/-- When the name is already present, `PackageNamed` returns the stored
scope and does not touch the state. -/
theorem packageNamed_of_lookup {st : ScopeState} {name : String} {s : Scope}
    (h : st.scopes.lookup name = some s) : packageNamed st name = (st, s) := by
  unfold packageNamed
  rw [h]

/-- **C2.** `PackageNamed` is an idempotent get-or-create: after any call
with name `n`, the returned scope is the one stored under key `n`, and a
repeated call with the same name returns the identical `Scope` instance and
leaves the registry unchanged (hence every later call returns it too). -/
theorem packageNamed_get_or_create (st : ScopeState) (name : String) :
    (packageNamed st name).1.scopes.lookup name = some (packageNamed st name).2
      ∧ packageNamed (packageNamed st name).1 name = packageNamed st name := by
  have hstore : (packageNamed st name).1.scopes.lookup name
      = some (packageNamed st name).2 := by
    unfold packageNamed
    cases h : st.scopes.lookup name with
    | some s => exact h
    | none =>
        show (st.scopes ++ [(name, _)]).lookup name = _
        rw [lookup_append_of_lookup_eq_none _ _ _ h]
        simp [List.lookup_cons]
  exact ⟨hstore, packageNamed_of_lookup hstore⟩

/-! ## Span lifecycle bookkeeping (`rootSpanStart`/`rootSpanEnd`,
`orphanedSpan`/`orphanEnd`, and each parent's child set)

`registry.go` holds the root set (`Registry.spans`) and the orphan set
(`Registry.orphans`); a parent's child set lives in the `Span` type, whose
code is not part of this file's source.  Spans are identified by their
pointer, embedded as `Nat`. -/

/-- Modelled from the spec: the containers a live span can occupy.  `roots`
and `orphans` embed `Registry.spans` and `Registry.orphans` (maintained by
`rootSpanStart`/`rootSpanEnd` and `orphanedSpan`/`orphanEnd` in
`registry.go`); `childEdges` models the child sets owned by live spans
(`(parent, child)` pairs), whose implementation (`Span.Children`) is not in
the available source. -/
structure LifeState where
  roots : List Nat
  orphans : List Nat
  childEdges : List (Nat × Nat)
deriving DecidableEq

/-- All live span occurrences, one per container slot. -/
def LifeState.live (st : LifeState) : List Nat :=
  (st.roots ++ st.orphans) ++ st.childEdges.map Prod.snd

/-- Modelled from the spec: the lifecycle events of a span.  A span is
created exactly once — as a root (`rootSpanStart`), as an orphan
(`orphanedSpan`, when its propagated parent is not in-process), or as a
child of a live parent — and on completion removes itself from whatever
container holds it (`rootSpanEnd`/`orphanEnd`/the parent's child set). -/
inductive SpanEvent where
  | startRoot (p : Nat)
  | startOrphan (p : Nat)
  | startChild (parent p : Nat)
  | finish (p : Nat)

/-- Modelled from the spec: one lifecycle step.  A start registers a fresh
span in exactly one container; spans that would violate the discipline
(already live, dead parent, finishing with live children) leave the state
unchanged. -/
def lifeStep (st : LifeState) : SpanEvent → LifeState
  | .startRoot p => if p ∈ st.live then st else { st with roots := p :: st.roots }
  | .startOrphan p => if p ∈ st.live then st else { st with orphans := p :: st.orphans }
  | .startChild parent p =>
      if p ∈ st.live ∨ parent ∉ st.live then st
      else { st with childEdges := (parent, p) :: st.childEdges }
  | .finish p =>
      if st.childEdges.any (fun e => e.1 = p) then st
      else { roots := st.roots.filter (fun q => q ≠ p),
             orphans := st.orphans.filter (fun q => q ≠ p),
             childEdges := st.childEdges.filter (fun e => e.2 ≠ p) }

def lifeRun (evs : List SpanEvent) : LifeState :=
  evs.foldl lifeStep { roots := [], orphans := [], childEdges := [] }

theorem live_nodup_step (st : LifeState) (ev : SpanEvent)
    (h : st.live.Nodup) : (lifeStep st ev).live.Nodup := by
  cases ev with
  | startRoot p =>
      simp only [lifeStep]
      by_cases hp : p ∈ st.live
      · rw [if_pos hp]; exact h
      · rw [if_neg hp]
        have hperm : (LifeState.live { st with roots := p :: st.roots }).Perm
            (p :: st.live) := List.Perm.refl _
        exact hperm.nodup_iff.mpr (List.nodup_cons.mpr ⟨hp, h⟩)
  | startOrphan p =>
      simp only [lifeStep]
      by_cases hp : p ∈ st.live
      · rw [if_pos hp]; exact h
      · rw [if_neg hp]
        have hperm : (LifeState.live { st with orphans := p :: st.orphans }).Perm
            (p :: st.live) := List.perm_middle.append_right _
        exact hperm.nodup_iff.mpr (List.nodup_cons.mpr ⟨hp, h⟩)
  | startChild parent p =>
      simp only [lifeStep]
      by_cases hp : p ∈ st.live ∨ parent ∉ st.live
      · rw [if_pos hp]; exact h
      · rw [if_neg hp]
        push_neg at hp
        have hperm : (LifeState.live
            { st with childEdges := (parent, p) :: st.childEdges }).Perm
            (p :: st.live) := List.perm_middle
        exact hperm.nodup_iff.mpr (List.nodup_cons.mpr ⟨hp.1, h⟩)
  | finish p =>
      simp only [lifeStep]
      by_cases hbusy : st.childEdges.any (fun e => e.1 = p)
      · rw [if_pos hbusy]; exact h
      · rw [if_neg hbusy]
        apply List.Nodup.sublist _ h
        apply List.Sublist.append
        apply List.Sublist.append
        · exact List.filter_sublist _
        · exact List.filter_sublist _
        · exact (List.filter_sublist _).map Prod.snd

theorem live_nodup_run (evs : List SpanEvent) : (lifeRun evs).live.Nodup := by
  induction evs using List.reverseRecOn with
  | nil => exact List.nodup_nil
  | append_singleton rest ev ih =>
      rw [lifeRun, List.foldl_append]
      exact live_nodup_step _ ev ih

/-- **C5.** At every quiescent instant reachable by lifecycle events, each
live span occupies exactly one container slot among
{root set, orphan set, some parent's child set} (its count over all
containers is 1), and consequently the concatenation of the root and orphan
snapshots — what `RootSpans` sorts and visits — contains no duplicates. -/
theorem span_in_exactly_one_container (evs : List SpanEvent) :
    (∀ p ∈ (lifeRun evs).live, (lifeRun evs).live.count p = 1)
      ∧ ((lifeRun evs).roots ++ (lifeRun evs).orphans).Nodup := by
  have h := live_nodup_run evs
  constructor
  · intro p hp
    exact List.count_eq_one_of_mem h hp
  · apply List.Nodup.sublist _ h
    exact List.sublist_append_left _ _

/-- Witness for C5: a root, an orphan and a child started, the root's
finish refused while its child lives, then both finished. -/
theorem span_in_exactly_one_container_witness :
    (lifeRun [SpanEvent.startRoot 1, SpanEvent.startOrphan 2,
        SpanEvent.startChild 1 3, SpanEvent.finish 3,
        SpanEvent.finish 1]).live.count 2 = 1 := by
  have h := span_in_exactly_one_container
    [SpanEvent.startRoot 1, SpanEvent.startOrphan 2,
     SpanEvent.startChild 1 3, SpanEvent.finish 3, SpanEvent.finish 1]
  exact h.1 2 (by decide)

/-! ## Spans, `spanSorter`, `RootSpans`, `walkSpan`, `AllSpans`

A `Span` is embedded as its identity-relevant data: pointer identity
(`ptr`), the owning Func's fully qualified name (`s.f.FullName()`, field
`fName`), the span id (`s.id`, field `sid`), and the child set enumerated
by `s.Children` (field `children`).  Two spans are the same Go object iff
the embedded values are equal. -/

inductive Span where
  | mk (ptr : Nat) (fName : String) (sid : Int) (children : List Span)

def Span.ptr : Span → Nat
  | .mk p _ _ _ => p

def Span.fName : Span → String
  | .mk _ f _ _ => f

def Span.sid : Span → Int
  | .mk _ _ i _ => i

def Span.children : Span → List Span
  | .mk _ _ _ cs => cs

mutual

def Span.decEq : (a b : Span) → Decidable (a = b)
  | .mk p1 f1 i1 cs1, .mk p2 f2 i2 cs2 =>
    if hp : p1 = p2 then
      if hf : f1 = f2 then
        if hi : i1 = i2 then
          match Span.decEqList cs1 cs2 with
          | isTrue hc => isTrue (by rw [hp, hf, hi, hc])
          | isFalse hc => isFalse (by intro h; injection h; contradiction)
        else isFalse (by intro h; injection h; contradiction)
      else isFalse (by intro h; injection h; contradiction)
    else isFalse (by intro h; injection h; contradiction)

def Span.decEqList : (as bs : List Span) → Decidable (as = bs)
  | [], [] => isTrue rfl
  | [], _ :: _ => isFalse (fun h => List.noConfusion h)
  | _ :: _, [] => isFalse (fun h => List.noConfusion h)
  | a :: as, b :: bs =>
    match Span.decEq a b, Span.decEqList as bs with
    | isTrue h1, isTrue h2 => isTrue (by rw [h1, h2])
    | isFalse h1, _ => isFalse (by intro h; injection h; contradiction)
    | _, isFalse h2 => isFalse (by intro h; injection h; contradiction)

end

instance : DecidableEq Span := Span.decEq

/-- `spanSorter.Less`: primary key the owning Func's full name, secondary
key the span id, both ascending
(`iname < jname || (iname == jname && ispan.id < jspan.id)`). -/
def spanLess (i j : Span) : Bool :=
  decide (i.fName < j.fName) || (i.fName == j.fName && decide (i.sid < j.sid))

/-- The non-strict total preorder `sort.Sort` establishes: `j` need not
come before `i`. -/
def spanSortLe (a b : Span) : Bool := !spanLess b a

/-- The sort key `(ownerFullName, spanId)` with lexicographic order. -/
def spanKey (s : Span) : String ×ₗ Int := toLex (s.fName, s.sid)

theorem spanLess_iff_lt (a b : Span) :
    spanLess a b = true ↔ spanKey a < spanKey b := by
  rw [spanKey, spanKey, Prod.Lex.lt_iff]
  simp [spanLess, beq_iff_eq]

theorem spanSortLe_iff (a b : Span) :
    spanSortLe a b = true ↔ spanKey a ≤ spanKey b := by
  constructor
  · intro h
    by_contra hlt
    rw [not_le, ← spanLess_iff_lt] at hlt
    rw [spanSortLe, hlt] at h
    simp at h
  · intro h
    by_contra hne
    rw [spanSortLe, Bool.not_eq_true, Bool.not_eq_false', spanLess_iff_lt] at hne
    exact absurd h (not_le.mpr hne)

theorem spanSortLe_trans : ∀ a b c : Span,
    spanSortLe a b = true → spanSortLe b c = true → spanSortLe a c = true := by
  intro a b c hab hbc
  rw [spanSortLe_iff] at *
  exact le_trans hab hbc

theorem spanSortLe_total : ∀ a b : Span,
    (spanSortLe a b || spanSortLe b a) = true := by
  intro a b
  rw [Bool.or_eq_true, spanSortLe_iff, spanSortLe_iff]
  exact le_total _ _

/-- The `spanMtx`/`orphanMtx`-guarded fields of `Registry`: the root-span
set and the orphan set, as snapshot lists (Go map iteration order is
arbitrary; order-sensitive statements quantify over permutations). -/
structure SpanState where
  spans : List Span
  orphans : List Span

/-- `RootSpans`: snapshot the root set, snapshot the orphan set, append,
sort with `spanSorter`, and visit in order.  `sort.Sort` is embedded
through its contract by `mergeSort` with the non-strict order of
`spanSorter.Less`. -/
def RootSpansList (st : SpanState) : List Span :=
  (st.spans ++ st.orphans).mergeSort spanSortLe

/-- Sorted-by-`≤`-keys plus pairwise-distinct keys upgrades to
sorted-by-`<`-keys. -/
theorem pairwise_lt_of_pairwise_le_nodup_keys (l : List Span)
    (hs : l.Pairwise fun a b => spanKey a ≤ spanKey b)
    (hnd : (l.map spanKey).Nodup) :
    l.Pairwise fun a b => spanKey a < spanKey b := by
  have hne : l.Pairwise (fun a b => spanKey a ≠ spanKey b) :=
    List.pairwise_map.mp hnd
  exact (hs.and hne).imp (fun h => lt_of_le_of_ne h.1 h.2)

/-- **C3.** `RootSpans` visits exactly the spans of the root ∪ orphan
snapshot (a permutation: same count for every span, count 1 when the
snapshot is duplicate-free), in non-decreasing `(ownerFullName, spanId)`
order; and when the sort keys are pairwise distinct, any iteration order of
the two snapshots sorts to the same visit sequence, so two snapshots with
no intervening mutation are visited identically. -/
theorem rootSpans_sorted_visits_union (st : SpanState) :
    (RootSpansList st).Perm (st.spans ++ st.orphans)
      ∧ (∀ s : Span,
          (RootSpansList st).count s = (st.spans ++ st.orphans).count s)
      ∧ (RootSpansList st).Pairwise (fun a b => spanKey a ≤ spanKey b)
      ∧ ((st.spans ++ st.orphans).Nodup →
          ∀ s ∈ st.spans ++ st.orphans, (RootSpansList st).count s = 1)
      ∧ (((st.spans ++ st.orphans).map spanKey).Nodup →
          ∀ l : List Span, l.Perm (st.spans ++ st.orphans) →
            l.mergeSort spanSortLe = RootSpansList st) := by
  have hperm : (RootSpansList st).Perm (st.spans ++ st.orphans) :=
    List.mergeSort_perm _ spanSortLe
  have hsorted : (RootSpansList st).Pairwise
      (fun a b => spanKey a ≤ spanKey b) :=
    (List.sorted_mergeSort spanSortLe_trans spanSortLe_total _).imp
      (fun h => (spanSortLe_iff _ _).mp h)
  refine ⟨hperm, fun s => hperm.count_eq s, hsorted, ?_, ?_⟩
  · intro hnd s hs
    rw [hperm.count_eq s]
    exact List.count_eq_one_of_mem hnd hs
  · intro hkeys l hl
    have hperm' : (l.mergeSort spanSortLe).Perm (RootSpansList st) :=
      (List.mergeSort_perm l spanSortLe).trans (hl.trans hperm.symm)
    have hkeys1 : ((l.mergeSort spanSortLe).map spanKey).Nodup :=
      ((hperm'.trans hperm).map spanKey).nodup_iff.mpr hkeys
    have hkeys2 : ((RootSpansList st).map spanKey).Nodup :=
      (hperm.map spanKey).nodup_iff.mpr hkeys
    have hs1 := pairwise_lt_of_pairwise_le_nodup_keys _
      ((List.sorted_mergeSort spanSortLe_trans spanSortLe_total l).imp
        (fun h => (spanSortLe_iff _ _).mp h)) hkeys1
    have hs2 := pairwise_lt_of_pairwise_le_nodup_keys _ hsorted hkeys2
    haveI : IsAntisymm Span (fun a b => spanKey a < spanKey b) :=
      ⟨fun a b h1 h2 => absurd h1 (not_lt.mpr h2.le)⟩
    exact List.eq_of_perm_of_sorted hperm' hs1 hs2

/-- A concrete two-span state with distinct sort keys, for the C3 witness. -/
def exampleSpanState : SpanState :=
  { spans := [Span.mk 0 "b" 0 [], Span.mk 1 "a" 1 []], orphans := [] }

/-- Witness for C3 on a two-span state with distinct keys: each span is
visited once and the reversed snapshot order sorts identically. -/
theorem rootSpans_sorted_visits_union_witness :
    (RootSpansList exampleSpanState).count (Span.mk 1 "a" 1 []) = 1
      ∧ [Span.mk 1 "a" 1 [], Span.mk 0 "b" 0 []].mergeSort spanSortLe
        = RootSpansList exampleSpanState := by
  have h := rootSpans_sorted_visits_union exampleSpanState
  refine ⟨h.2.2.2.1 (by decide) _ (by decide), ?_⟩
  exact h.2.2.2.2 (by decide) _ (by decide)

/-- `walkSpan`: visit the span, then recursively walk each child from
`s.Children`.  The visit sequence it produces. -/
def walkSpanList : Span → List Span
  | .mk p f i cs =>
      .mk p f i cs :: (cs.attach.map (fun c => walkSpanList c.val)).flatten
termination_by s => sizeOf s
decreasing_by
  simp_wf
  have := List.sizeOf_lt_of_mem c.property
  omega

/-- The recursion equation of `walkSpan`: the span first, then the walks of
its children in order (pre-order).  Its existence is the termination of
`walkSpan` on every (finite, inductively built) span tree. -/
theorem walkSpanList_eq (s : Span) :
    walkSpanList s = s :: (s.children.map walkSpanList).flatten := by
  cases s with
  | mk p f i cs =>
      rw [walkSpanList, List.attach_map_val]
      rfl

/-- `AllSpans`: `RootSpans(func(s) { walkSpan(s, cb) })` — the walks of the
sorted roots and orphans, concatenated. -/
def allSpansList (st : SpanState) : List Span :=
  ((RootSpansList st).map walkSpanList).flatten

/-- `t` is reachable from `s` through the child relation (including
`s` itself). -/
inductive Descendant : Span → Span → Prop
  | refl (s : Span) : Descendant s s
  | child {s c t : Span} (hc : c ∈ s.children) (h : Descendant c t) :
      Descendant s t

/-- `u` is a proper descendant of `t`. -/
def StrictDescendant (t u : Span) : Prop :=
  ∃ c ∈ t.children, Descendant c u

/-- `t` is visited strictly before `u` in the sequence `L`. -/
def VisitedBefore (L : List Span) (t u : Span) : Prop :=
  ∃ l1 l2, L = l1 ++ t :: l2 ∧ u ∈ l2

/-- Structural induction over a span and its children. -/
theorem Span.inductionOn {P : Span → Prop}
    (h : ∀ s : Span, (∀ c ∈ s.children, P c) → P s) : ∀ s, P s
  | .mk p f i cs => h (.mk p f i cs) (fun c hc => by
      have hc' : c ∈ cs := hc
      exact Span.inductionOn h c)
termination_by s => sizeOf s
decreasing_by
  simp_wf
  have := List.sizeOf_lt_of_mem hc'
  omega

theorem mem_walk_of_descendant {s t : Span} (h : Descendant s t) :
    t ∈ walkSpanList s := by
  induction h with
  | refl s => rw [walkSpanList_eq]; exact List.mem_cons_self _ _
  | child hc hd ih =>
      rw [walkSpanList_eq]
      apply List.mem_cons_of_mem
      rw [List.mem_flatten]
      exact ⟨walkSpanList _, List.mem_map_of_mem walkSpanList hc, ih⟩

theorem descendant_of_mem_walk : ∀ s : Span, ∀ t : Span,
    t ∈ walkSpanList s → Descendant s t := by
  intro s
  induction s using Span.inductionOn with
  | h s ih =>
      intro t ht
      rw [walkSpanList_eq] at ht
      rcases List.mem_cons.mp ht with rfl | hmem
      · exact Descendant.refl t
      · rw [List.mem_flatten] at hmem
        rcases hmem with ⟨lw, hlw, htl⟩
        rw [List.mem_map] at hlw
        rcases hlw with ⟨c, hc, rfl⟩
        exact Descendant.child hc (ih c hc t htl)

/-- The walk of a member of `cs` is a contiguous block of the concatenated
walks of `cs`. -/
theorem walk_infix_flatten {c : Span} {cs : List Span} (hc : c ∈ cs) :
    walkSpanList c <:+: (cs.map walkSpanList).flatten := by
  rcases List.append_of_mem hc with ⟨l1, l2, rfl⟩
  rw [List.map_append, List.map_cons, List.flatten_append, List.flatten_cons,
    ← List.append_assoc]
  exact List.infix_append _ _ _

/-- The walk of a descendant is a contiguous block of the walk. -/
theorem walk_infix_of_descendant {s t : Span} (h : Descendant s t) :
    walkSpanList t <:+: walkSpanList s := by
  induction h with
  | refl s => exact List.infix_refl _
  | @child s c t hc hd ih =>
      refine ih.trans ?_
      rw [walkSpanList_eq (s := s)]
      exact List.infix_cons (walk_infix_flatten hc)

/-- Inside any sequence containing the walk of `t` as a contiguous block,
`t` is visited before each of its proper descendants. -/
theorem visitedBefore_of_walk_infix {L : List Span} {t u : Span}
    (hinf : walkSpanList t <:+: L) (hu : StrictDescendant t u) :
    VisitedBefore L t u := by
  rcases hinf with ⟨pre, post, hL⟩
  rcases hu with ⟨c, hc, hd⟩
  refine ⟨pre, (t.children.map walkSpanList).flatten ++ post, ?_, ?_⟩
  · rw [← hL, walkSpanList_eq]
    simp [List.append_assoc]
  · apply List.mem_append_left
    rw [List.mem_flatten]
    exact ⟨walkSpanList c, List.mem_map_of_mem walkSpanList hc,
      mem_walk_of_descendant hd⟩

/-- **C10.** `walkSpan` terminates on every finite acyclic span tree (its
recursion equation below is total) and visits pre-order: the span, then its
children's walks.  `AllSpans` visits exactly the spans reachable from the
root/orphan snapshot — exactly once each when the whole visit sequence is
duplicate-free (the embedding of pointer-acyclicity) — and every visited
span is visited before each of its proper descendants. -/
theorem allSpans_walk_preorder (st : SpanState) :
    (∀ s : Span, walkSpanList s = s :: (s.children.map walkSpanList).flatten)
      ∧ (∀ s t : Span, t ∈ walkSpanList s ↔ Descendant s t)
      ∧ (∀ t : Span, t ∈ allSpansList st ↔
          ∃ s ∈ st.spans ++ st.orphans, Descendant s t)
      ∧ ((allSpansList st).Nodup →
          ∀ t : Span, (∃ s ∈ st.spans ++ st.orphans, Descendant s t) →
            (allSpansList st).count t = 1)
      ∧ (∀ t u : Span, t ∈ allSpansList st → StrictDescendant t u →
          VisitedBefore (allSpansList st) t u) := by
  have hrootperm : (RootSpansList st).Perm (st.spans ++ st.orphans) :=
    List.mergeSort_perm _ spanSortLe
  have hmem : ∀ t : Span, t ∈ allSpansList st ↔
      ∃ s ∈ st.spans ++ st.orphans, Descendant s t := by
    intro t
    unfold allSpansList
    rw [List.mem_flatten]
    constructor
    · rintro ⟨lw, hlw, htl⟩
      rw [List.mem_map] at hlw
      rcases hlw with ⟨s, hs, rfl⟩
      exact ⟨s, hrootperm.mem_iff.mp hs, descendant_of_mem_walk s t htl⟩
    · rintro ⟨s, hs, hd⟩
      exact ⟨walkSpanList s,
        List.mem_map_of_mem walkSpanList (hrootperm.mem_iff.mpr hs),
        mem_walk_of_descendant hd⟩
  refine ⟨walkSpanList_eq,
    fun s t => ⟨descendant_of_mem_walk s t, mem_walk_of_descendant⟩,
    hmem, ?_, ?_⟩
  · intro hnd t ht
    exact List.count_eq_one_of_mem hnd ((hmem t).mpr ht)
  · intro t u ht hu
    rcases (hmem t).mp ht with ⟨s, hs, hd⟩
    have hinf : walkSpanList t <:+: allSpansList st :=
      (walk_infix_of_descendant hd).trans
        (walk_infix_flatten (hrootperm.mem_iff.mpr hs))
    exact visitedBefore_of_walk_infix hinf hu

/-- Concrete two-node tree for the C10 witness. -/
def exampleChildSpan : Span := Span.mk 1 "b" 1 []

def exampleRootSpan : Span := Span.mk 0 "a" 0 [exampleChildSpan]

def exampleTreeState : SpanState := { spans := [exampleRootSpan], orphans := [] }

/-- Witness for C10: in the tree `a → b`, `AllSpans` visits `b` exactly
once, and visits the root `a` before its descendant `b`. -/
theorem allSpans_walk_preorder_witness :
    (allSpansList exampleTreeState).count exampleChildSpan = 1
      ∧ VisitedBefore (allSpansList exampleTreeState)
          exampleRootSpan exampleChildSpan := by
  have h := allSpans_walk_preorder exampleTreeState
  have hval : allSpansList exampleTreeState = [exampleRootSpan, exampleChildSpan] := by
    simp [allSpansList, RootSpansList, exampleTreeState, List.mergeSort,
      walkSpanList_eq, exampleRootSpan, exampleChildSpan, Span.children]
  have hnd : (allSpansList exampleTreeState).Nodup := by
    rw [hval]; decide
  have hchild : exampleChildSpan ∈ exampleRootSpan.children := by
    rw [exampleRootSpan]; exact List.mem_cons_self _ _
  have hroot : exampleRootSpan ∈ exampleTreeState.spans ++ exampleTreeState.orphans := by
    rw [exampleTreeState]; exact List.mem_cons_self _ _
  refine ⟨h.2.2.2.1 hnd _
    ⟨exampleRootSpan, hroot, Descendant.child hchild (Descendant.refl _)⟩, ?_⟩
  exact h.2.2.2.2 _ _
    ((h.2.2.1 _).mpr ⟨exampleRootSpan, hroot, Descendant.refl _⟩)
    ⟨exampleChildSpan, hchild, Descendant.refl _⟩

/-! ## Trace-context propagation (client injector / server extractor)

The implementation of `TraceRequest`/`TraceHandler` and the `tracestate`
codec is not part of the available source — only its tests are — so the
protocol is modelled from the spec: one string-valued header of `key=value`
pairs, comma-delimited (the test sends `sampled=true` literally), carrying
the trace id, the caller's span id as the new span's parent id, and the
sampling flag; the encoding must round-trip, malformed headers count as
absent, and decode never fails the request. -/

/-- Modelled from the spec: decimal digit character for `d < 10`. -/
def digitChar (d : Nat) : Char := Char.ofNat (48 + d)

/-- Modelled from the spec: decimal rendering of a natural number (ASCII
digits, most significant first). -/
def natDigits (n : Nat) : List Char :=
  if n < 10 then [digitChar n]
  else natDigits (n / 10) ++ [digitChar (n % 10)]
decreasing_by
  exact Nat.div_lt_self (by omega) (by omega)

/-- Modelled from the spec: value of an ASCII digit character. -/
def digitVal (c : Char) : Option Nat :=
  if 48 ≤ c.toNat ∧ c.toNat ≤ 57 then some (c.toNat - 48) else none

/-- Modelled from the spec: left-to-right accumulation of decimal digits. -/
def parseNatAcc : List Char → Nat → Option Nat
  | [], acc => some acc
  | c :: cs, acc =>
      match digitVal c with
      | none => none
      | some d => parseNatAcc cs (acc * 10 + d)

/-- Modelled from the spec: parse a nonempty all-digit string. -/
def parseNat : List Char → Option Nat
  | [] => none
  | c :: cs => parseNatAcc (c :: cs) 0

/-- Modelled from the spec: parse the boolean sampling flag. -/
def parseBool (l : List Char) : Option Bool :=
  if l = "true".toList then some true
  else if l = "false".toList then some false
  else none

theorem digitVal_digitChar : ∀ d : Nat, d < 10 → digitVal (digitChar d) = some d := by
  decide

theorem digitChar_is_digit : ∀ d : Nat, d < 10 →
    48 ≤ (digitChar d).toNat ∧ (digitChar d).toNat ≤ 57 := by
  decide

theorem natDigits_all_digits (n : Nat) :
    ∀ c ∈ natDigits n, 48 ≤ c.toNat ∧ c.toNat ≤ 57 := by
  induction n using Nat.strong_induction_on with
  | _ n ih =>
      intro c hc
      rw [natDigits] at hc
      by_cases h : n < 10
      · rw [if_pos h] at hc
        rcases List.mem_singleton.mp hc with rfl
        exact digitChar_is_digit n h
      · rw [if_neg h] at hc
        rcases List.mem_append.mp hc with hc | hc
        · exact ih (n / 10) (Nat.div_lt_self (by omega) (by omega)) c hc
        · rcases List.mem_singleton.mp hc with rfl
          exact digitChar_is_digit (n % 10) (Nat.mod_lt _ (by omega))

theorem natDigits_ne_nil (n : Nat) : natDigits n ≠ [] := by
  rw [natDigits]
  by_cases h : n < 10
  · rw [if_pos h]; simp
  · rw [if_neg h]; simp

theorem parseNatAcc_append (l1 l2 : List Char) (acc : Nat) :
    parseNatAcc (l1 ++ l2) acc =
      match parseNatAcc l1 acc with
      | none => none
      | some a => parseNatAcc l2 a := by
  induction l1 generalizing acc with
  | nil => rfl
  | cons c cs ih =>
      rw [List.cons_append, parseNatAcc, parseNatAcc]
      cases digitVal c with
      | none => rfl
      | some d => exact ih _

theorem parseNatAcc_natDigits (n : Nat) : ∀ acc : Nat,
    parseNatAcc (natDigits n) acc
      = some (acc * 10 ^ (natDigits n).length + n) := by
  induction n using Nat.strong_induction_on with
  | _ n ih =>
      intro acc
      rw [natDigits]
      by_cases h : n < 10
      · rw [if_pos h]
        show parseNatAcc [digitChar n] acc = _
        rw [parseNatAcc, digitVal_digitChar n h]
        show some (acc * 10 + n) = _
        norm_num
      · rw [if_neg h]
        rw [parseNatAcc_append]
        rw [ih (n / 10) (Nat.div_lt_self (by omega) (by omega)) acc]
        show parseNatAcc [digitChar (n % 10)] _ = _
        rw [parseNatAcc, digitVal_digitChar (n % 10) (Nat.mod_lt _ (by omega))]
        show some ((acc * 10 ^ (natDigits (n / 10)).length + n / 10) * 10 + n % 10) = _
        rw [List.length_append, List.length_singleton, pow_add, pow_one]
        congr 1
        have := Nat.div_add_mod n 10
        ring_nf
        omega

theorem parseNat_natDigits (n : Nat) : parseNat (natDigits n) = some n := by
  have hne := natDigits_ne_nil n
  have hacc := parseNatAcc_natDigits n 0
  rcases hd : natDigits n with _ | ⟨c, cs⟩
  · exact absurd hd hne
  · rw [parseNat]
    rw [hd] at hacc
    rw [hacc]
    norm_num

/-- Modelled from the spec: split a header at a delimiter character. -/
def splitOnChar (sep : Char) : List Char → List (List Char)
  | [] => [[]]
  | c :: cs =>
      if c = sep then [] :: splitOnChar sep cs
      else
        match splitOnChar sep cs with
        | [] => [[c]]
        | seg :: segs => (c :: seg) :: segs

/-- Modelled from the spec: split a `key=value` pair at its first `=`;
`none` when there is no `=` (a malformed pair). -/
def breakAtEq : List Char → Option (List Char × List Char)
  | [] => none
  | c :: cs =>
      if c = '=' then some ([], cs)
      else
        match breakAtEq cs with
        | none => none
        | some (k, v) => some (c :: k, v)

/-- Modelled from the spec: the decoded propagation context — optional
trace id, optional parent span id, sampling flag (default off). -/
structure RemoteCtx where
  traceId : Option Nat
  parentId : Option Nat
  sampled : Bool
deriving DecidableEq

def emptyCtx : RemoteCtx := { traceId := none, parentId := none, sampled := false }

/-- Modelled from the spec: interpret one `key=value` pair; unknown keys or
unparsable values make the header malformed. -/
def applyPair (ctx : RemoteCtx) : List Char × List Char → Option RemoteCtx
  | (k, v) =>
    if k = "trace-id".toList then
      match parseNat v with
      | none => none
      | some n => some { ctx with traceId := some n }
    else if k = "parent-id".toList then
      match parseNat v with
      | none => none
      | some n => some { ctx with parentId := some n }
    else if k = "sampled".toList then
      match parseBool v with
      | none => none
      | some b => some { ctx with sampled := b }
    else none

def breakPairs : List (List Char) → Option (List (List Char × List Char))
  | [] => some []
  | seg :: segs =>
      match breakAtEq seg, breakPairs segs with
      | some kv, some kvs => some (kv :: kvs)
      | _, _ => none

def applyPairs (ctx : RemoteCtx) : List (List Char × List Char) → Option RemoteCtx
  | [] => some ctx
  | kv :: kvs =>
      match applyPair ctx kv with
      | none => none
      | some ctx' => applyPairs ctx' kvs

/-- Modelled from the spec: the server-side decoder of the propagation
header; `none` means the header is malformed. -/
def decodeHeader (l : List Char) : Option RemoteCtx :=
  match breakPairs (splitOnChar ',' l) with
  | none => none
  | some kvs => applyPairs emptyCtx kvs

/-- Modelled from the spec: the client injector's encoding of the current
trace id, the current span's own id (the receiver's parent id) and the
sampling flag. -/
def encodeHeader (traceId parentId : Nat) (sampled : Bool) : List Char :=
  "trace-id=".toList ++ natDigits traceId
    ++ ",parent-id=".toList ++ natDigits parentId
    ++ ",sampled=".toList ++ (if sampled then "true".toList else "false".toList)

/-- The observable outcome of the server-side extraction step: the Trace's
id, its sampling annotation, and the opened span's parent id. -/
structure ServerSpanResult where
  traceId : Nat
  sampled : Bool
  parentId : Option Nat
deriving DecidableEq

/-- Modelled from the spec: the server extractor.  A well-formed header
yields a Trace carrying the propagated id (or a fresh one when absent,
covering the forced-sampling case) and annotations, and an orphan span
whose parent id is the decoded remote span id; an absent or malformed
header yields a fresh trace and an ordinary parentless root span.  It is
total: the request is handled in every case. -/
def serverExtract (header : Option (List Char)) (freshTraceId : Nat) :
    ServerSpanResult :=
  match header with
  | none => { traceId := freshTraceId, sampled := false, parentId := none }
  | some h =>
      match decodeHeader h with
      | none => { traceId := freshTraceId, sampled := false, parentId := none }
      | some ctx =>
          { traceId := ctx.traceId.getD freshTraceId,
            sampled := ctx.sampled,
            parentId := ctx.parentId }

/-- The client side of a call: the active span's trace id, its own span id,
and its trace's sampling annotation. -/
structure ClientSpanCtx where
  traceId : Nat
  spanId : Nat
  sampled : Bool

/-- Modelled from the spec: the client injector — encode the active span if
any, else send no header. -/
def clientInject (ctx : Option ClientSpanCtx) : Option (List Char) :=
  ctx.map (fun c => encodeHeader c.traceId c.spanId c.sampled)

theorem splitOnChar_of_not_mem {sep : Char} {l : List Char} (h : sep ∉ l) :
    splitOnChar sep l = [l] := by
  induction l with
  | nil => rfl
  | cons c cs ih =>
      have hcne : c ≠ sep := fun hc => h (by rw [hc]; exact List.mem_cons_self _ _)
      rw [splitOnChar, if_neg hcne]
      rw [ih (fun hm => h (List.mem_cons_of_mem c hm))]

theorem splitOnChar_ne_nil (sep : Char) (l : List Char) :
    splitOnChar sep l ≠ [] := by
  cases l with
  | nil => simp [splitOnChar]
  | cons c cs =>
      rw [splitOnChar]
      by_cases h : c = sep
      · rw [if_pos h]; simp
      · rw [if_neg h]
        cases hs : splitOnChar sep cs <;> simp

theorem splitOnChar_append {sep : Char} {l1 : List Char} (l2 : List Char)
    (h : sep ∉ l1) :
    splitOnChar sep (l1 ++ sep :: l2) = l1 :: splitOnChar sep l2 := by
  induction l1 with
  | nil =>
      rw [List.nil_append, splitOnChar, if_pos rfl]
  | cons c cs ih =>
      have hcne : c ≠ sep := fun hc => h (by rw [hc]; exact List.mem_cons_self _ _)
      rw [List.cons_append, splitOnChar, if_neg hcne]
      rw [ih (fun hm => h (List.mem_cons_of_mem c hm))]

theorem breakAtEq_append {k : List Char} (v : List Char) (h : ('=' : Char) ∉ k) :
    breakAtEq (k ++ '=' :: v) = some (k, v) := by
  induction k with
  | nil => rw [List.nil_append, breakAtEq, if_pos rfl]
  | cons c cs ih =>
      have hcne : c ≠ '=' := fun hc => h (by rw [hc]; exact List.mem_cons_self _ _)
      rw [List.cons_append, breakAtEq, if_neg hcne]
      rw [ih (fun hm => h (List.mem_cons_of_mem c hm))]

theorem comma_not_mem_natDigits (n : Nat) : (',' : Char) ∉ natDigits n := by
  intro h
  have hd := natDigits_all_digits n ',' h
  have hc : (',' : Char).toNat = 44 := rfl
  omega

theorem eq_not_mem_natDigits (n : Nat) : ('=' : Char) ∉ natDigits n := by
  intro h
  have hd := natDigits_all_digits n '=' h
  have hc : ('=' : Char).toNat = 61 := rfl
  omega

theorem comma_not_mem_bool (s : Bool) :
    (',' : Char) ∉ (if s then "true".toList else "false".toList) := by
  cases s <;> decide

theorem parseBool_encode (s : Bool) :
    parseBool (if s then "true".toList else "false".toList) = some s := by
  cases s <;> rfl

theorem encode_split (tid pid : Nat) (s : Bool) :
    splitOnChar ',' (encodeHeader tid pid s)
      = ["trace-id=".toList ++ natDigits tid,
         "parent-id=".toList ++ natDigits pid,
         "sampled=".toList ++ (if s then "true".toList else "false".toList)] := by
  have h1 : encodeHeader tid pid s
      = ("trace-id=".toList ++ natDigits tid)
        ++ ',' :: (("parent-id=".toList ++ natDigits pid)
          ++ ',' :: ("sampled=".toList
            ++ (if s then "true".toList else "false".toList))) := by
    rw [encodeHeader]
    simp [List.append_assoc]
  have hA : (',' : Char) ∉ "trace-id=".toList ++ natDigits tid := by
    rw [List.mem_append]
    rintro (h | h)
    · revert h; decide
    · exact comma_not_mem_natDigits tid h
  have hB : (',' : Char) ∉ "parent-id=".toList ++ natDigits pid := by
    rw [List.mem_append]
    rintro (h | h)
    · revert h; decide
    · exact comma_not_mem_natDigits pid h
  have hC : (',' : Char) ∉ "sampled=".toList
      ++ (if s then "true".toList else "false".toList) := by
    rw [List.mem_append]
    rintro (h | h)
    · revert h; decide
    · exact comma_not_mem_bool s h
  rw [h1, splitOnChar_append _ hA, splitOnChar_append _ hB,
    splitOnChar_of_not_mem hC]

/-- The full decoder inverts the encoder. -/
theorem decodeHeader_encodeHeader (tid pid : Nat) (s : Bool) :
    decodeHeader (encodeHeader tid pid s)
      = some { traceId := some tid, parentId := some pid, sampled := s } := by
  have e1 : "trace-id=".toList ++ natDigits tid
      = "trace-id".toList ++ '=' :: natDigits tid := rfl
  have e2 : "parent-id=".toList ++ natDigits pid
      = "parent-id".toList ++ '=' :: natDigits pid := rfl
  have e3 : "sampled=".toList ++ (if s then "true".toList else "false".toList)
      = "sampled".toList ++ '=' :: (if s then "true".toList else "false".toList) := rfl
  have hb1 := breakAtEq_append (k := "trace-id".toList) (natDigits tid) (by decide)
  have hb2 := breakAtEq_append (k := "parent-id".toList) (natDigits pid) (by decide)
  have hb3 := breakAtEq_append (k := "sampled".toList)
    (if s then "true".toList else "false".toList) (by decide)
  have ha1 : applyPair emptyCtx ("trace-id".toList, natDigits tid)
      = some { traceId := some tid, parentId := none, sampled := false } := by
    rw [applyPair, if_pos rfl, parseNat_natDigits]
    rfl
  have ha2 : applyPair { traceId := some tid, parentId := none, sampled := false }
      ("parent-id".toList, natDigits pid)
      = some { traceId := some tid, parentId := some pid, sampled := false } := by
    rw [applyPair, if_neg (by decide), if_pos rfl, parseNat_natDigits]
  have ha3 : applyPair { traceId := some tid, parentId := some pid, sampled := false }
      ("sampled".toList, if s then "true".toList else "false".toList)
      = some { traceId := some tid, parentId := some pid, sampled := s } := by
    rw [applyPair, if_neg (by decide), if_neg (by decide), if_pos rfl,
      parseBool_encode]
  rw [decodeHeader, encode_split, e1, e2, e3]
  rw [breakPairs, hb1, breakPairs, hb2, breakPairs, hb3, breakPairs]
  simp only [applyPairs, ha1, ha2, ha3]

/-- **C4.** The propagation codec round-trips: for every trace id, parent
span id and sampled flag, the server extractor fully recovers what the
client injector encoded into the string header; in particular a client span
with id 42 under a sampled trace produces a server-side span whose decoded
parent id is 42 and whose trace is sampled, with the trace id propagated
rather than freshly synthesized. -/
theorem propagation_roundtrip (tid pid fresh : Nat) (s : Bool) :
    decodeHeader (encodeHeader tid pid s)
        = some { traceId := some tid, parentId := some pid, sampled := s }
      ∧ serverExtract
          (clientInject (some { traceId := tid, spanId := 42, sampled := true }))
          fresh
        = { traceId := tid, sampled := true, parentId := some 42 } := by
  refine ⟨decodeHeader_encodeHeader tid pid s, ?_⟩
  show serverExtract (some (encodeHeader tid 42 true)) fresh = _
  simp only [serverExtract, decodeHeader_encodeHeader, Option.getD_some]

/-- **C7.** A header carrying only `sampled=true` — no trace id, no parent
span id — produces a trace that is sampled but has the freshly synthesized
trace id, and a span with no remote parent: forced sampling works without
any propagated context. -/
theorem forced_sampling_fresh_trace (fresh : Nat) :
    serverExtract (some ("sampled=true".toList)) fresh
      = { traceId := fresh, sampled := true, parentId := none } := by
  have hd : decodeHeader ("sampled=true".toList)
      = some { traceId := none, parentId := none, sampled := true } := by decide
  simp only [serverExtract, hd, Option.getD_none]

/-- **C8.** A header that is not a valid encoding is treated exactly as an
absent header: extraction never fails the request (it is total), and the
handler runs under a fresh trace with an ordinary parentless root span. -/
theorem malformed_header_as_absent (h : List Char) (fresh : Nat)
    (hbad : decodeHeader h = none) :
    serverExtract (some h) fresh = serverExtract none fresh
      ∧ serverExtract none fresh
        = { traceId := fresh, sampled := false, parentId := none } := by
  constructor
  · simp only [serverExtract, hbad]
  · rfl

/-- Witness for C8: the header `garbage` (no `key=value` shape) decodes to
nothing and the request proceeds exactly as with no header. -/
theorem malformed_header_as_absent_witness :
    serverExtract (some ("garbage".toList)) 7 = serverExtract none 7 :=
  (malformed_header_as_absent ("garbage".toList) 7 (by decide)).1

end Monkit
